import Mathlib

/-!
A verification development for the TinyInfiniTensor core: a shallow
embedding of the pooled planning allocator, the operator shape-inference
functions, and the computation-graph operations (topological sort, peephole
optimization, memory planning), together with theorems checking the
natural-language specification against this embedding.

Machine integers (`size_t`) are modelled as `Nat` with explicit reduction
modulo `2 ^ 64` at every operation that can wrap.
-/

/-- The modulus of `size_t` arithmetic (64-bit unsigned). -/
def W : Nat := 2 ^ 64

/-- State of the pooled planning allocator (`core/allocator.h`): `used` and
`peak` counters, the `alignment` (set to `sizeof(uint64_t) = 8` by the
constructor), and `free_blocks`, a `std::map<size_t, size_t>` from block
starting offset to block size, modelled as an association list sorted by
strictly increasing key.  Only the planning phase is modelled (`ptr ==
nullptr`): `alloc` and `free` assert this and `getPtr` only materializes
`peak` bytes. -/
structure Allocator where
  used : Nat
  peak : Nat
  alignment : Nat
  free_blocks : List (Nat × Nat)
deriving DecidableEq, Repr

/-- `Allocator::getAlignedSize`: `((size - 1) / alignment + 1) * alignment`
evaluated in `size_t` arithmetic.  `size - 1` wraps modulo `2^64` when
`size = 0`, which is rendered here as `(size + W - 1) % W`. -/
def Allocator.getAlignedSize (A : Allocator) (size : Nat) : Nat :=
  ((size + W - 1) % W / A.alignment + 1) * A.alignment % W

/-- Insert-or-assign into the sorted offset map, mirroring
`free_blocks[key] = value` on `std::map`. -/
def fbInsert : List (Nat × Nat) → Nat → Nat → List (Nat × Nat)
  | [], k, v => [(k, v)]
  | (a, b) :: rest, k, v =>
    if k < a then (k, v) :: (a, b) :: rest
    else if k = a then (k, v) :: rest
    else (a, b) :: fbInsert rest k v

/-- The first-fit scan of `Allocator::alloc`: walk `free_blocks` in offset
order; at the first block `(block_addr, block_size)` with `block_size >=
size`, erase it and insert-or-assign the remainder block
`(block_addr + size, block_size - size)`, returning `block_addr` together
with the updated map.  Returns `none` when no block is large enough. -/
def allocScan : List (Nat × Nat) → Nat → Option (Nat × List (Nat × Nat))
  | [], _ => none
  | (a, b) :: rest, sz =>
    if sz ≤ b then some (a, fbInsert rest ((a + sz) % W) (b - sz))
    else
      match allocScan rest sz with
      | some (r, fb) => some (r, (a, b) :: fb)
      | none => none

/-- `Allocator::alloc`: align the request, first-fit scan the free list; on
a hit take the block (the remainder entry is inserted unconditionally by the
source, also when it has size `0`); otherwise grow the tail:
`offset = peak; peak += size`.  `used += size` in both cases. -/
def Allocator.alloc (A : Allocator) (size : Nat) : Allocator × Nat :=
  let sz := A.getAlignedSize size
  match allocScan A.free_blocks sz with
  | some (addr, fb) =>
    ({ A with free_blocks := fb, used := (A.used + sz) % W }, addr)
  | none =>
    ({ A with peak := (A.peak + sz) % W, used := (A.used + sz) % W }, A.peak)

/-- Split the sorted map around key `k`, dropping the binding at `k` when
present: mirrors locating `it = free_blocks.find(addr)` after
`free_blocks[addr] = size`, the first component being the entries before
`it` and the second the entries after it. -/
def fbSplit : List (Nat × Nat) → Nat → List (Nat × Nat) × List (Nat × Nat)
  | [], _ => ([], [])
  | (a, b) :: rest, k =>
    if a < k then
      let p := fbSplit rest k
      ((a, b) :: p.1, p.2)
    else if a = k then ([], rest)
    else ([], (a, b) :: rest)

/-- `Allocator::free`: align the size, `used -= size`, insert the block,
coalesce with the right neighbor, then with the left neighbor, and finally
reclaim the tail (shrink `peak`) when the merged block ends at `peak`. -/
def Allocator.free (A : Allocator) (addr size : Nat) : Allocator :=
  let sz := A.getAlignedSize size
  let used' := (A.used + W - sz) % W
  let s := fbSplit A.free_blocks addr
  let pre := s.1
  let post := s.2
  -- coalesce with the right neighbor
  let step1 : Nat × List (Nat × Nat) :=
    match post with
    | (a2, b2) :: rest2 =>
      if (addr + sz) % W = a2 then ((sz + b2) % W, rest2) else (sz, post)
    | [] => (sz, post)
  let v1 := step1.1
  let post1 := step1.2
  -- coalesce with the left neighbor
  let step2 : Nat × Nat × List (Nat × Nat) :=
    match pre.reverse with
    | (pa, pb) :: preRev =>
      if (pa + pb) % W = addr then (pa, (pb + v1) % W, preRev.reverse)
      else (addr, v1, pre)
    | [] => (addr, v1, pre)
  let blockAddr := step2.1
  let v2 := step2.2.1
  let pre1 := step2.2.2
  -- tail reclamation
  if (blockAddr + v2) % W = A.peak then
    { A with used := used', peak := (A.peak + W - v2) % W,
             free_blocks := pre1 ++ post1 }
  else
    { A with used := used', free_blocks := pre1 ++ (blockAddr, v2) :: post1 }

/-- A fresh allocator, as built by the `Allocator` constructor: zero
counters, alignment `sizeof(uint64_t) = 8`, empty free list. -/
def emptyAllocator : Allocator :=
  { used := 0, peak := 0, alignment := 8, free_blocks := [] }

/-- One planning-phase call on the allocator. -/
inductive AllocCall where
  | alloc (size : Nat)
  | free (addr size : Nat)
deriving DecidableEq, Repr

/-- Run a sequence of planning-phase calls, discarding the offsets returned
by `alloc`. -/
def runCalls (A : Allocator) : List AllocCall → Allocator
  | [] => A
  | .alloc s :: rest => runCalls (A.alloc s).1 rest
  | .free a s :: rest => runCalls (A.free a s) rest

/-- Fixed-alignment form of `getAlignedSize` for alignment `8` (the value
every constructed allocator has). -/
def alignUp8 (size : Nat) : Nat := ((size + W - 1) % W / 8 + 1) * 8 % W

/-- The planning loop of `GraphObj::dataMalloc` (step 1): for every tensor
of `graph.tensors` in order, call `allocator.alloc(tensor->getBytes())` and
record the returned offset.  The tensors are abstracted to their byte
sizes; the i-th returned offset is the offset recorded for the i-th tensor
(the source keys the offsets by `fuid`, which `checkValid` requires to be
unique). -/
def dataMallocOffsets (A : Allocator) : List Nat → List Nat × Allocator
  | [] => ([], A)
  | b :: rest =>
    let r := A.alloc b
    let t := dataMallocOffsets r.1 rest
    (r.2 :: t.1, t.2)

theorem getAlignedSize_eq_alignUp8 (A : Allocator) (h8 : A.alignment = 8)
    (b : Nat) : A.getAlignedSize b = alignUp8 b := by
  unfold Allocator.getAlignedSize alignUp8
  rw [h8]

theorem alignUp8_bounds (b : Nat) (hb : b ≤ 2 ^ 60) :
    b ≤ alignUp8 b ∧ alignUp8 b < W := by
  unfold alignUp8
  cases b with
  | zero =>
    constructor
    · exact Nat.zero_le _
    · decide
  | succ n =>
    have hnW : n < W := by
      have : (2:Nat) ^ 60 < 2 ^ 64 := by norm_num
      simp only [W]
      omega
    have h1 : (n + 1 + W - 1) % W = n := by
      have h2 : n + 1 + W - 1 = n + W := by omega
      rw [h2, Nat.add_mod_right]
      exact Nat.mod_eq_of_lt hnW
    rw [h1]
    have hd := Nat.div_add_mod n 8
    have hm : n % 8 < 8 := Nat.mod_lt _ (by norm_num)
    have hlt : (n / 8 + 1) * 8 < W := by
      have h60 : (2:Nat) ^ 60 = 1152921504606846976 := by norm_num
      have h64 : W = 18446744073709551616 := by norm_num [W]
      omega
    rw [Nat.mod_eq_of_lt hlt]
    constructor
    · omega
    · exact hlt

theorem dataMallocOffsets_tail_growth (l : List Nat) :
    ∀ A : Allocator, A.free_blocks = [] → A.alignment = 8 →
    A.peak + (l.map alignUp8).sum < W →
    (dataMallocOffsets A l).1 =
      (List.range l.length).map
        (fun i => A.peak + ((l.take i).map alignUp8).sum) ∧
    (dataMallocOffsets A l).2.peak = A.peak + (l.map alignUp8).sum ∧
    (dataMallocOffsets A l).2.free_blocks = [] ∧
    (dataMallocOffsets A l).2.alignment = 8 := by
  induction l with
  | nil =>
    intro A hfb h8 hpk
    simp [dataMallocOffsets, hfb, h8]
  | cons b tl ih =>
    intro A hfb h8 hpk
    have hsz : A.getAlignedSize b = alignUp8 b := getAlignedSize_eq_alignUp8 A h8 b
    have hpkb : A.peak + alignUp8 b < W := by
      simp only [List.map_cons, List.sum_cons] at hpk
      omega
    have hstep : A.alloc b =
        ({ A with peak := A.peak + alignUp8 b,
                  used := (A.used + alignUp8 b) % W }, A.peak) := by
      unfold Allocator.alloc
      rw [hsz, hfb]
      simp only [allocScan]
      rw [Nat.mod_eq_of_lt hpkb]
    have hrec := ih { A with peak := A.peak + alignUp8 b,
                             used := (A.used + alignUp8 b) % W }
      hfb h8
      (by
        show A.peak + alignUp8 b + (tl.map alignUp8).sum < W
        simp only [List.map_cons, List.sum_cons] at hpk
        omega)
    obtain ⟨h1, h2, h3, h4⟩ := hrec
    simp only [dataMallocOffsets, hstep]
    refine ⟨?_, ?_, h3, h4⟩
    · rw [h1]
      simp only [List.length_cons, List.range_succ_eq_map, List.map_cons,
        List.map_map, List.take_zero, List.map_nil, List.sum_nil,
        Nat.add_zero, List.cons.injEq, true_and]
      apply List.map_congr_left
      intro i _
      show A.peak + alignUp8 b + ((tl.take i).map alignUp8).sum
        = A.peak + (((b :: tl).take (i + 1)).map alignUp8).sum
      simp only [List.take_succ_cons, List.map_cons, List.sum_cons]
      omega
    · rw [h2]
      show A.peak + alignUp8 b + (tl.map alignUp8).sum
        = A.peak + ((b :: tl).map alignUp8).sum
      simp only [List.map_cons, List.sum_cons]
      omega

/-- The allocator state after `alloc(8); alloc(8); alloc(8)` on a fresh
allocator. -/
def coalesceA3 : Allocator := (((emptyAllocator.alloc 8).1.alloc 8).1.alloc 8).1

/-- The allocator state after additionally `free(8, 8); free(16, 8)`. -/
def coalesceA5 : Allocator := (coalesceA3.free 8 8).free 16 8

/-- C5: on a fresh allocator (alignment 8) the calls `alloc(8), alloc(8),
alloc(8)` return offsets `0, 8, 16` and raise `peak` to `24`; after
`free(8,8)` and `free(16,8)` the freed blocks coalesce and tail reclamation
shrinks `peak` to `8` with `free_blocks` empty; a subsequent `alloc(16)`
returns offset `8` as new tail growth and `peak` becomes `24` again. -/
theorem allocator_coalescing_scenario :
    (emptyAllocator.alloc 8).2 = 0 ∧
    ((emptyAllocator.alloc 8).1.alloc 8).2 = 8 ∧
    (((emptyAllocator.alloc 8).1.alloc 8).1.alloc 8).2 = 16 ∧
    coalesceA3.peak = 24 ∧
    (coalesceA3.free 8 8).peak = 24 ∧
    coalesceA5.peak = 8 ∧
    coalesceA5.free_blocks = [] ∧
    (coalesceA5.alloc 16).2 = 8 ∧
    (coalesceA5.alloc 16).1.peak = 24 := by
  decide

/-- C2 counterexample: it is not the case that `free_blocks` never holds an
entry of size `0`: after `alloc(8); alloc(8); free(0,8); alloc(8)` on a
fresh allocator, the first-fit hit consumes the freed block exactly and the
remainder entry `(8, 0)` is inserted anyway. -/
theorem alloc_zero_size_entry_reachable :
    ¬ (∀ calls : List AllocCall,
        ∀ p ∈ (runCalls emptyAllocator calls).free_blocks, 0 < p.2) := by
  intro h
  exact absurd
    (h [.alloc 8, .alloc 8, .free 0 8, .alloc 8] (8, 0) (by decide))
    (by decide)

theorem fbInsert_self_mem (l : List (Nat × Nat)) (k v : Nat) :
    (k, v) ∈ fbInsert l k v := by
  induction l with
  | nil => simp [fbInsert]
  | cons hd tl ih =>
    obtain ⟨a, b⟩ := hd
    unfold fbInsert
    by_cases h1 : k < a
    · simp [h1]
    · by_cases h2 : k = a
      · simp [h1, h2]
      · simp only [h1, h2, if_false, List.mem_cons]
        exact Or.inr ih

theorem allocScan_found {fb : List (Nat × Nat)} {sz a : Nat}
    {fb' : List (Nat × Nat)} (h : allocScan fb sz = some (a, fb')) :
    ∃ b, (a, b) ∈ fb ∧ sz ≤ b ∧ ((a + sz) % W, b - sz) ∈ fb' := by
  induction fb generalizing fb' with
  | nil => simp [allocScan] at h
  | cons hd tl ih =>
    obtain ⟨a0, b0⟩ := hd
    unfold allocScan at h
    by_cases hle : sz ≤ b0
    · rw [if_pos hle] at h
      obtain ⟨h1, h2⟩ := Prod.mk.injEq .. ▸ Option.some.injEq .. ▸ h
      subst h1
      exact ⟨b0, List.mem_cons_self .., hle, h2 ▸ fbInsert_self_mem ..⟩
    · rw [if_neg hle] at h
      cases heq : allocScan tl sz with
      | none => rw [heq] at h; exact absurd h (by simp)
      | some r =>
        obtain ⟨r1, r2⟩ := r
        rw [heq] at h
        obtain ⟨h1, h2⟩ := Prod.mk.injEq .. ▸ Option.some.injEq .. ▸ h
        subst h1
        obtain ⟨b, hb1, hb2, hb3⟩ := ih heq
        exact ⟨b, List.mem_cons_of_mem _ hb1, hb2, h2 ▸ List.mem_cons_of_mem _ hb3⟩

/-- C2 amended: when the first-fit scan of `alloc` finds a block
`(addr, b)` of size `b ≥ aligned`, the block is taken (its offset is
returned, `peak` is untouched) and a new free entry of size `b - aligned`
is inserted at `(addr + aligned)` UNCONDITIONALLY — also when the remainder
is `0` — so `free_blocks` can come to hold an entry of size `0`. -/
theorem alloc_first_fit_inserts_remainder (A : Allocator) (size addr : Nat)
    (fb' : List (Nat × Nat))
    (h : allocScan A.free_blocks (A.getAlignedSize size) = some (addr, fb')) :
    (A.alloc size).2 = addr ∧
    (A.alloc size).1.free_blocks = fb' ∧
    (A.alloc size).1.peak = A.peak ∧
    ∃ b, (addr, b) ∈ A.free_blocks ∧ A.getAlignedSize size ≤ b ∧
      ((addr + A.getAlignedSize size) % W, b - A.getAlignedSize size) ∈ fb' := by
  refine ⟨?_, ?_, ?_, allocScan_found h⟩ <;>
    simp only [Allocator.alloc, h]

/-- The allocator state after `alloc(8); alloc(8); free(0, 8)` on a fresh
allocator, used as a concrete witness state. -/
def zeroRemainderA : Allocator :=
  runCalls emptyAllocator [.alloc 8, .alloc 8, .free 0 8]

theorem alloc_first_fit_inserts_remainder_witness :
    allocScan zeroRemainderA.free_blocks (zeroRemainderA.getAlignedSize 8)
      = some (0, [(8, 0)]) ∧
    ((zeroRemainderA.alloc 8).2 = 0 ∧
     (zeroRemainderA.alloc 8).1.free_blocks = [(8, 0)] ∧
     (zeroRemainderA.alloc 8).1.peak = zeroRemainderA.peak ∧
     ∃ b, (0, b) ∈ zeroRemainderA.free_blocks ∧
       zeroRemainderA.getAlignedSize 8 ≤ b ∧
       ((0 + zeroRemainderA.getAlignedSize 8) % W,
         b - zeroRemainderA.getAlignedSize 8) ∈ [(8, 0)]) :=
  ⟨by decide, alloc_first_fit_inserts_remainder zeroRemainderA 8 0 [(8, 0)] (by decide)⟩

/-- C10: `getAlignedSize(0)` wraps modulo `2^64` to `0`; consequently
`alloc(0)` leaves `used` and `peak` unchanged, and when `free_blocks` is
non-empty it returns the offset of the first free block while leaving the
allocator state — in particular that free entry — exactly as it was. -/
theorem alloc_zero_request :
    emptyAllocator.getAlignedSize 0 = 0 ∧
    ∀ A : Allocator, A.alignment = 8 → A.used < W → A.peak < W →
      ((A.alloc 0).1.used = A.used ∧ (A.alloc 0).1.peak = A.peak) ∧
      ∀ a b rest, A.free_blocks = (a, b) :: rest → a < W →
        List.Chain' (fun p q : Nat × Nat => p.1 < q.1) A.free_blocks →
        (A.alloc 0).1 = A ∧ (A.alloc 0).2 = a := by
  refine ⟨by decide, ?_⟩
  intro A h8 hu hp
  obtain ⟨u, p, al, fb⟩ := A
  simp only at h8 hu hp
  subst h8
  have hsz : Allocator.getAlignedSize ⟨u, p, 8, fb⟩ 0 = 0 := by
    show ((0 + W - 1) % W / 8 + 1) * 8 % W = 0
    decide
  constructor
  · cases hscan : allocScan fb 0 with
    | none =>
      simp only [Allocator.alloc, hsz, hscan]
      exact ⟨Nat.mod_eq_of_lt hu, Nat.mod_eq_of_lt hp⟩
    | some r =>
      obtain ⟨addr, fb2⟩ := r
      simp only [Allocator.alloc, hsz, hscan]
      exact ⟨Nat.mod_eq_of_lt hu, trivial⟩
  · intro a b rest hfb ha hchain
    simp only at hfb hchain
    have hscan : allocScan fb 0 = some (a, (a, b) :: rest) := by
      rw [hfb]
      unfold allocScan
      rw [if_pos (Nat.zero_le b)]
      have hmod : (a + 0) % W = a := by
        rw [Nat.add_zero]; exact Nat.mod_eq_of_lt ha
      rw [hmod, Nat.sub_zero]
      congr 1
      cases rest with
      | nil => rfl
      | cons hd tl =>
        obtain ⟨a2, b2⟩ := hd
        have ha2 : a < a2 := by
          rw [hfb] at hchain
          exact (List.chain'_cons.mp hchain).1
        unfold fbInsert
        rw [if_pos ha2]
    constructor
    · simp only [Allocator.alloc, hsz, hscan]
      rw [Nat.add_zero, Nat.mod_eq_of_lt hu, ← hfb]
    · simp only [Allocator.alloc, hsz, hscan]

/-- A concrete allocator state with one free block, used as witness. -/
def oneBlockA : Allocator :=
  { used := 0, peak := 24, alignment := 8, free_blocks := [(8, 16)] }

theorem alloc_zero_request_witness :
    (oneBlockA.alignment = 8 ∧ oneBlockA.used < W ∧ oneBlockA.peak < W ∧
     oneBlockA.free_blocks = (8, 16) :: [] ∧ (8 : Nat) < W ∧
     List.Chain' (fun p q : Nat × Nat => p.1 < q.1) oneBlockA.free_blocks) ∧
    ((oneBlockA.alloc 0).1 = oneBlockA ∧ (oneBlockA.alloc 0).2 = 8) :=
  ⟨⟨rfl, by decide, by decide, rfl, by decide, by simp [oneBlockA]⟩,
   ((alloc_zero_request.2 oneBlockA rfl (by decide) (by decide)).2
      8 16 [] rfl (by decide) (by simp [oneBlockA]))⟩

theorem sum_take_succ (f : Nat → Nat) (l : List Nat) (i : Nat)
    (hi : i < l.length) :
    ((l.take (i + 1)).map f).sum = ((l.take i).map f).sum + f (l.getD i 0) := by
  rw [List.take_succ, List.getElem?_eq_getElem hi, List.getD_eq_getElem _ 0 hi]
  simp only [Option.toList_some, List.map_append, List.sum_append,
    List.map_cons, List.map_nil, List.sum_cons, List.sum_nil, Nat.add_zero]

theorem sum_take_mono (f : Nat → Nat) (l : List Nat) (i j : Nat)
    (hij : i ≤ j) :
    ((l.take i).map f).sum ≤ ((l.take j).map f).sum := by
  have hji : j = i + (j - i) := by omega
  rw [hji, List.take_add, List.map_append, List.sum_append]
  exact Nat.le_add_right _ _

theorem getD_map_range (f : Nat → Nat) (n i : Nat) (hi : i < n) :
    ((List.range n).map f).getD i 0 = f i := by
  rw [List.getD_eq_getElem _ 0 (by simpa using hi)]
  simp

theorem getD_mem_of_lt (l : List Nat) (i : Nat) (hi : i < l.length) :
    l.getD i 0 ∈ l := by
  rw [List.getD_eq_getElem _ 0 hi]
  exact List.getElem_mem hi

/-- C9: planning allocation for a list of tensor byte sizes from a fresh
allocator: no `free` is issued, so every `alloc` extends the tail — the
i-th tensor receives offset equal to the sum of the aligned byte sizes of
the preceding tensors, the byte ranges of distinct tensors are pairwise
disjoint (each ends no later than the next begins), every range lies
within `[0, peak)` of the region later materialized by `getPtr()`, and the
free list stays empty throughout. -/
theorem dataMalloc_offsets_disjoint (l : List Nat)
    (hb : ∀ b ∈ l, b ≤ 2 ^ 60)
    (hsum : (l.map alignUp8).sum < W) :
    (dataMallocOffsets emptyAllocator l).1.length = l.length ∧
    (∀ i, i < l.length →
      (dataMallocOffsets emptyAllocator l).1.getD i 0
        = ((l.take i).map alignUp8).sum) ∧
    (∀ i j, i < j → j < l.length →
      (dataMallocOffsets emptyAllocator l).1.getD i 0 + l.getD i 0
        ≤ (dataMallocOffsets emptyAllocator l).1.getD j 0) ∧
    (∀ i, i < l.length →
      (dataMallocOffsets emptyAllocator l).1.getD i 0 + l.getD i 0
        ≤ (dataMallocOffsets emptyAllocator l).2.peak) ∧
    (dataMallocOffsets emptyAllocator l).2.free_blocks = [] := by
  obtain ⟨h1, h2, h3, _⟩ :=
    dataMallocOffsets_tail_growth l emptyAllocator rfl rfl
      (by show 0 + (l.map alignUp8).sum < W; rw [Nat.zero_add]; exact hsum)
  have hpeak : (dataMallocOffsets emptyAllocator l).2.peak
      = (l.map alignUp8).sum := by
    rw [h2]
    exact Nat.zero_add _
  have hoffs : ∀ i, i < l.length →
      (dataMallocOffsets emptyAllocator l).1.getD i 0
        = ((l.take i).map alignUp8).sum := by
    intro i hi
    rw [h1, getD_map_range _ _ _ hi]
    show emptyAllocator.peak + ((l.take i).map alignUp8).sum
      = ((l.take i).map alignUp8).sum
    exact Nat.zero_add _
  have hstep : ∀ i, i < l.length →
      ((l.take i).map alignUp8).sum + l.getD i 0
        ≤ ((l.take (i + 1)).map alignUp8).sum := by
    intro i hi
    rw [sum_take_succ alignUp8 l i hi]
    exact Nat.add_le_add_left
      ((alignUp8_bounds (l.getD i 0) (hb _ (getD_mem_of_lt l i hi))).1) _
  refine ⟨?_, hoffs, ?_, ?_, ‹_›⟩
  · rw [h1]
    simp
  · intro i j hij hj
    have hi : i < l.length := lt_trans hij hj
    rw [hoffs i hi, hoffs j hj]
    exact le_trans (hstep i hi) (sum_take_mono alignUp8 l (i + 1) j (by omega))
  · intro i hi
    rw [hoffs i hi, hpeak]
    refine le_trans (hstep i hi) ?_
    have hm := sum_take_mono alignUp8 l (i + 1) l.length (by omega)
    rwa [List.take_length] at hm

theorem dataMalloc_offsets_disjoint_witness :
    ((∀ b ∈ [4, 8, 24], b ≤ 2 ^ 60) ∧
      (([4, 8, 24].map alignUp8).sum < W)) ∧
    ((dataMallocOffsets emptyAllocator [4, 8, 24]).1.length = [4, 8, 24].length ∧
     (∀ i, i < [4, 8, 24].length →
       (dataMallocOffsets emptyAllocator [4, 8, 24]).1.getD i 0
         = (([4, 8, 24].take i).map alignUp8).sum) ∧
     (∀ i j, i < j → j < [4, 8, 24].length →
       (dataMallocOffsets emptyAllocator [4, 8, 24]).1.getD i 0
           + [4, 8, 24].getD i 0
         ≤ (dataMallocOffsets emptyAllocator [4, 8, 24]).1.getD j 0) ∧
     (∀ i, i < [4, 8, 24].length →
       (dataMallocOffsets emptyAllocator [4, 8, 24]).1.getD i 0
           + [4, 8, 24].getD i 0
         ≤ (dataMallocOffsets emptyAllocator [4, 8, 24]).2.peak) ∧
     (dataMallocOffsets emptyAllocator [4, 8, 24]).2.free_blocks = []) :=
  ⟨⟨by decide, by decide⟩,
   dataMalloc_offsets_disjoint [4, 8, 24] (by decide) (by decide)⟩

/-- A tensor shape: `Shape = vector<int>` in the source. -/
abbrev Shape := List Int

/-- The loop body of `infer_broadcast` (`utils/operator_utils.cc`) for
output position `j`, which the source loop (running `i = 0 .. maxRank-1`
from the lowest dimension and writing `out[maxRank - 1 - i]`) fills at
loop index `i = maxRank - 1 - j`.  `IT_TODO_HALT()` on incompatible
dimensions is rendered as `none`. -/
def broadcastAt (A B : Shape) (j : Nat) : Option Int :=
  let rankA := A.length
  let rankB := B.length
  let maxRank := max rankA rankB
  let i := maxRank - 1 - j
  let dimA := if i < rankA then A.getD (rankA - i - 1) 0 else 1
  let dimB := if i < rankB then B.getD (rankB - i - 1) 0 else 1
  if dimA = dimB then some dimA
  else if dimA = 1 then some dimB
  else if dimB = 1 then some dimA
  else none

/-- `infer_broadcast`: two-way ONNX/NumPy broadcasting, the output shape
`out` of length `max rankA rankB` produced position by position. -/
def infer_broadcast (A B : Shape) : Option Shape :=
  (List.range (max A.length B.length)).mapM (broadcastAt A B)

/-- `MatmulObj::inferShape` (`operators/matmul.cc`), as a function of the
transpose flags and the two input shapes.  The C++ ternary
`transA ? x : y` is rendered as `cond transA x y`; the failed
`IT_ASSERT(currnerK_A == currnerK_B)` is rendered as `none`; the source's
(misspelled) local names are kept. -/
def matmulInferShape (transA transB : Bool) (shapeA shapeB : Shape) :
    Option Shape :=
  let rankA := shapeA.length
  let rankB := shapeB.length
  let currnerK_A := cond transA (shapeA.getD (rankA - 2) 0)
                      (shapeA.getD (rankA - 1) 0)
  let currentM := cond transA (shapeA.getD (rankA - 1) 0)
                    (shapeA.getD (rankA - 2) 0)
  let currnerK_B := cond transB (shapeB.getD (rankB - 1) 0)
                      (shapeB.getD (rankB - 2) 0)
  let currentN := cond transB (shapeB.getD (rankB - 2) 0)
                    (shapeB.getD (rankB - 1) 0)
  if currnerK_A = currnerK_B then
    match infer_broadcast (shapeA.take (rankA - 2)) (shapeB.take (rankB - 2)) with
    | some outputShape => some (outputShape ++ [currentM, currentN])
    | none => none
  else none

/-- State of a `MatmulObj` (`operators/matmul.h`): the transpose flags and
the auxiliary fields `m`, `n`, `k` printed by `toString` as
`mnk=[m,n,k]`. -/
structure MatmulObj where
  transA : Bool
  transB : Bool
  m : Int
  n : Int
  k : Int
deriving DecidableEq, Repr

/-- `MatmulObj::inferShape` as a state transformer on the operator object:
the method body (`operators/matmul.cc`) computes `currentM`, `currentN`,
`currnerK_A` and the output shape and returns the shape; it contains no
assignment to the fields `m`, `n`, `k`, so the operator state is returned
unchanged. -/
def MatmulObj.inferShape (op : MatmulObj) (shapeA shapeB : Shape) :
    MatmulObj × Option Shape :=
  (op, matmulInferShape op.transA op.transB shapeA shapeB)

/-- The loop of `ConcatObj::inferShape` (`operators/concat.cc`) over the
inputs after the first, with current accumulator `dims`: for input `s`,
assert `s.rank == rank`; for each axis `j < rank` accumulate
`dims[dim] += s[dim]` when `j == dim` and assert `s[j] == dims[j]`
otherwise (for `j ≠ dim` the accumulator still holds `inputs[0]`'s value
there).  A failed `IT_ASSERT` is rendered as `none`. -/
def concatGo (rank dim : Nat) : Shape → List Shape → Option Shape
  | dims, [] => some dims
  | dims, s :: tl =>
    if s.length = rank ∧ ∀ j < rank, j ≠ dim → s.getD j 0 = dims.getD j 0 then
      concatGo rank dim (dims.set dim (dims.getD dim 0 + s.getD dim 0)) tl
    else none

/-- `ConcatObj::inferShape`: start from `dims = inputs[0].dims` and
`rank = inputs[0].rank` and fold the loop body over the remaining
inputs. -/
def concatInferShape (dim : Nat) (shapes : List Shape) : Option Shape :=
  match shapes with
  | [] => none
  | dims0 :: rest => concatGo dims0.length dim dims0 rest

theorem set_getD_self (l : Shape) (i : Nat) (h : i < l.length) :
    l.set i (l.getD i 0) = l := by
  rw [List.getD_eq_getElem _ 0 h]
  induction l generalizing i with
  | nil => rfl
  | cons hd tl ih =>
    cases i with
    | zero => rfl
    | succ n =>
      simp only [List.set_cons_succ, List.getElem_cons_succ, List.cons.injEq,
        true_and]
      exact ih n (by simpa using h)

theorem getD_set_self (l : Shape) (i : Nat) (v : Int) (h : i < l.length) :
    (l.set i v).getD i 0 = v := by
  rw [List.getD_eq_getElem _ 0 (by simpa using h)]
  exact List.getElem_set_self _

theorem getD_set_ne (l : Shape) (i j : Nat) (v : Int) (hne : i ≠ j) :
    (l.set i v).getD j 0 = l.getD j 0 := by
  by_cases hj : j < l.length
  · rw [List.getD_eq_getElem _ 0 (by simpa using hj),
      List.getD_eq_getElem _ 0 hj]
    exact List.getElem_set_ne hne _
  · rw [List.getD_eq_default _ _ (by simpa using Nat.le_of_not_lt hj),
      List.getD_eq_default _ _ (Nat.le_of_not_lt hj)]

theorem concatGo_spec (dim rank : Nat) (rest : List Shape) :
    ∀ dims : Shape, dims.length = rank → dim < rank →
    concatGo rank dim dims rest
      = if ∀ s ∈ rest, s.length = rank ∧
            ∀ j < rank, j ≠ dim → s.getD j 0 = dims.getD j 0
        then some (dims.set dim
          (dims.getD dim 0 + (rest.map (fun s => s.getD dim 0)).sum))
        else none := by
  induction rest with
  | nil =>
    intro dims hlen hdim
    have hc : ∀ s ∈ ([] : List Shape), s.length = rank ∧
        ∀ j < rank, j ≠ dim → s.getD j 0 = dims.getD j 0 := by simp
    rw [if_pos hc]
    simp only [concatGo, List.map_nil, List.sum_nil, add_zero]
    rw [set_getD_self dims dim (by rw [hlen]; exact hdim)]
  | cons s tl ih =>
    intro dims hlen hdim
    have hdim' : dim < dims.length := by rw [hlen]; exact hdim
    simp only [concatGo]
    by_cases hs : s.length = rank ∧
        ∀ j < rank, j ≠ dim → s.getD j 0 = dims.getD j 0
    · rw [if_pos hs,
        ih (dims.set dim (dims.getD dim 0 + s.getD dim 0))
          (by rw [List.length_set]; exact hlen) hdim]
      have hsame : ∀ x : Shape,
          (∀ j < rank, j ≠ dim → x.getD j 0
            = (dims.set dim (dims.getD dim 0 + s.getD dim 0)).getD j 0)
          ↔ (∀ j < rank, j ≠ dim → x.getD j 0 = dims.getD j 0) := by
        intro x
        constructor
        · intro h j hj hne
          rw [h j hj hne, getD_set_ne dims dim j _ (fun he => hne he.symm)]
        · intro h j hj hne
          rw [h j hj hne, getD_set_ne dims dim j _ (fun he => hne he.symm)]
      by_cases ht : ∀ x ∈ tl, x.length = rank ∧
          ∀ j < rank, j ≠ dim → x.getD j 0 = dims.getD j 0
      · have ht' : ∀ x ∈ tl, x.length = rank ∧
            ∀ j < rank, j ≠ dim → x.getD j 0
              = (dims.set dim (dims.getD dim 0 + s.getD dim 0)).getD j 0 := by
          intro x hx
          exact ⟨(ht x hx).1, (hsame x).mpr (ht x hx).2⟩
        rw [if_pos ht',
          if_pos (by
            intro x hx
            rcases List.mem_cons.mp hx with h | h
            · subst h; exact hs
            · exact ht x h)]
        rw [List.set_set, getD_set_self dims dim _ hdim', List.map_cons,
          List.sum_cons, add_assoc]
      · have ht' : ¬ ∀ x ∈ tl, x.length = rank ∧
            ∀ j < rank, j ≠ dim → x.getD j 0
              = (dims.set dim (dims.getD dim 0 + s.getD dim 0)).getD j 0 := by
          intro hall
          exact ht (fun x hx => ⟨(hall x hx).1, (hsame x).mp (hall x hx).2⟩)
        rw [if_neg ht',
          if_neg (fun hall => ht (fun x hx =>
            hall x (List.mem_cons_of_mem _ hx)))]
    · rw [if_neg hs,
        if_neg (fun hall => hs (hall s (List.mem_cons_self ..)))]

/-- C8: Concat shape inference returns `inputs[0].shape` with axis `dim`
replaced by the sum over all inputs of `shape[dim]`, and it fails exactly
when some input's rank differs from `inputs[0]`'s rank or some non-`dim`
axis of some input differs from the corresponding axis of `inputs[0]`
(`dim` is normalized against `inputs[0].rank` at construction, hence the
hypothesis `dim < dims0.length`). -/
theorem concat_infer_shape_spec (dim : Nat) (dims0 : Shape)
    (rest : List Shape) (hdim : dim < dims0.length) :
    concatInferShape dim (dims0 :: rest)
      = if ∀ s ∈ rest, s.length = dims0.length ∧
            ∀ j < dims0.length, j ≠ dim → s.getD j 0 = dims0.getD j 0
        then some (dims0.set dim
          (dims0.getD dim 0 + (rest.map (fun s => s.getD dim 0)).sum))
        else none := by
  simp only [concatInferShape]
  exact concatGo_spec dim dims0.length rest dims0 rfl hdim

theorem concat_infer_shape_spec_witness :
    (1 < ([2, 3, 4] : Shape).length) ∧
    concatInferShape 1 [[2, 3, 4], [2, 5, 4]]
      = if ∀ s ∈ [([2, 5, 4] : Shape)], s.length = ([2, 3, 4] : Shape).length ∧
            ∀ j < ([2, 3, 4] : Shape).length, j ≠ 1 →
              s.getD j 0 = ([2, 3, 4] : Shape).getD j 0
        then some (([2, 3, 4] : Shape).set 1
          (([2, 3, 4] : Shape).getD 1 0
            + ([([2, 5, 4] : Shape)].map (fun s => s.getD 1 0)).sum))
        else none :=
  ⟨by decide, concat_infer_shape_spec 1 [2, 3, 4] [[2, 5, 4]] (by decide)⟩

/-- C7: for MatMul over inputs of rank at least 2, shape inference fails
when the contraction dimensions `kA` and `kB` (after applying
`transA`/`transB`) disagree, and otherwise returns the broadcast of the
batch prefixes `A.shape[:-2]` and `B.shape[:-2]` concatenated with
`[mA, nB]`; in particular A `[2,3,5]` with B `[5,4]` yields `[2,3,4]`, and
A `[2,3,5]` with B `[2,4,5]` and `transB = true` yields `[2,3,4]`. -/
theorem matmul_infer_shape_spec :
    matmulInferShape false false [2, 3, 5] [5, 4] = some [2, 3, 4] ∧
    matmulInferShape false true [2, 3, 5] [2, 4, 5] = some [2, 3, 4] ∧
    ∀ (transA transB : Bool) (sA sB : Shape),
      2 ≤ sA.length → 2 ≤ sB.length →
      (cond transA (sA.getD (sA.length - 2) 0) (sA.getD (sA.length - 1) 0)
          ≠ cond transB (sB.getD (sB.length - 1) 0) (sB.getD (sB.length - 2) 0) →
        matmulInferShape transA transB sA sB = none) ∧
      (∀ batch : Shape,
        cond transA (sA.getD (sA.length - 2) 0) (sA.getD (sA.length - 1) 0)
          = cond transB (sB.getD (sB.length - 1) 0) (sB.getD (sB.length - 2) 0) →
        infer_broadcast (sA.take (sA.length - 2)) (sB.take (sB.length - 2))
          = some batch →
        matmulInferShape transA transB sA sB
          = some (batch ++
              [cond transA (sA.getD (sA.length - 1) 0) (sA.getD (sA.length - 2) 0),
               cond transB (sB.getD (sB.length - 2) 0) (sB.getD (sB.length - 1) 0)])) := by
  refine ⟨by decide, by decide, ?_⟩
  intro transA transB sA sB _ _
  constructor
  · intro hne
    simp only [matmulInferShape]
    rw [if_neg hne]
  · intro batch heq hbc
    simp only [matmulInferShape]
    rw [if_pos heq, hbc]

theorem matmul_infer_shape_spec_witness :
    (2 ≤ ([2, 3, 5] : Shape).length ∧ 2 ≤ ([2, 4, 5] : Shape).length ∧
     cond false (([2, 3, 5] : Shape).getD (([2, 3, 5] : Shape).length - 2) 0)
         (([2, 3, 5] : Shape).getD (([2, 3, 5] : Shape).length - 1) 0)
       = cond true (([2, 4, 5] : Shape).getD (([2, 4, 5] : Shape).length - 1) 0)
           (([2, 4, 5] : Shape).getD (([2, 4, 5] : Shape).length - 2) 0) ∧
     infer_broadcast (([2, 3, 5] : Shape).take (([2, 3, 5] : Shape).length - 2))
         (([2, 4, 5] : Shape).take (([2, 4, 5] : Shape).length - 2))
       = some [2]) ∧
    matmulInferShape false true [2, 3, 5] [2, 4, 5] = some [2, 3, 4] :=
  ⟨⟨by decide, by decide, by decide, by decide⟩,
   (matmul_infer_shape_spec.2.2 false true [2, 3, 5] [2, 4, 5]
      (by decide) (by decide)).2 [2] (by decide) (by decide)⟩

/-- C3 (contradicted by the code): on A `[2,3,5]`, B `[5,4]` with
`transA = transB = false` and prior field values `m = n = k = 0`,
`inferShape` returns the output shape `[2,3,4]` but performs no assignment
to the operator's `m`, `n`, `k` fields: the state is returned unchanged,
so `(m, n, k)` remains `(0, 0, 0)` instead of the `(mA, nB, kA) =
(3, 4, 5)` the claim says is cached. -/
theorem matmul_mnk_not_cached :
    ((MatmulObj.mk false false 0 0 0).inferShape [2, 3, 5] [5, 4]).2
      = some [2, 3, 4] ∧
    ((MatmulObj.mk false false 0 0 0).inferShape [2, 3, 5] [5, 4]).1
      = MatmulObj.mk false false 0 0 0 ∧
    ¬ (((MatmulObj.mk false false 0 0 0).inferShape [2, 3, 5] [5, 4]).1.m = 3 ∧
       ((MatmulObj.mk false false 0 0 0).inferShape [2, 3, 5] [5, 4]).1.n = 4 ∧
       ((MatmulObj.mk false false 0 0 0).inferShape [2, 3, 5] [5, 4]).1.k = 5) := by
  refine ⟨by decide, rfl, ?_⟩
  intro h
  exact absurd h.1 (by decide)

/-- The operator kind tag together with its per-kind state (`OpType` plus
the per-class fields): `TransposeObj.perm` (`vector<int>`),
`MatmulObj.{transA, transB}` (the auxiliary `m, n, k` fields are modelled
by `MatmulObj` above and are not read by the graph rewrites),
`ConcatObj.dim`, and a plain elementwise kind such as `Relu`. -/
inductive OpKind where
  | transpose (perm : List Int)
  | matmul (transA transB : Bool)
  | concat (dim : Nat)
  | relu
deriving DecidableEq, Repr

/-- A tensor node (`core/tensor.h`): its shape, its producing operator
(`source`, at most one, a weak back-reference) and its consuming operators
(`targets`, a vector of back-references); operators are referred to by
numeric id, standing for object identity (`guid`). -/
structure TensorNode where
  shape : Shape
  source : Option Nat
  targets : List Nat
deriving DecidableEq, Repr

/-- An operator node (`core/operator.h`): kind with per-kind state,
ordered input and output tensor ids, and the derived predecessor and
successor operator edges. -/
structure OpNode where
  kind : OpKind
  inputs : List Nat
  outputs : List Nat
  preds : List Nat
  succs : List Nat
deriving DecidableEq, Repr

/-- The computation graph (`core/graph.h`): the stores hold every live
tensor/operator object by id (shared mutable objects), while `tensors` and
`ops` are the graph's member lists (`GraphObj::tensors`, `GraphObj::ops`)
in order; `sorted` is the topological-order flag. -/
structure Graph where
  tensorStore : List (Nat × TensorNode)
  opStore : List (Nat × OpNode)
  tensors : List Nat
  ops : List Nat
  sorted : Bool
deriving DecidableEq, Repr

/-- Dereference a tensor id (a default dummy for unknown ids keeps the
function total; the scenarios only dereference live ids). -/
def Graph.tensorObj (g : Graph) (id : Nat) : TensorNode :=
  ((g.tensorStore.find? (fun p => p.1 == id)).map Prod.snd).getD ⟨[], none, []⟩

/-- Dereference an operator id. -/
def Graph.opObj (g : Graph) (id : Nat) : OpNode :=
  ((g.opStore.find? (fun p => p.1 == id)).map Prod.snd).getD
    ⟨OpKind.relu, [], [], [], []⟩

/-- Mutate the tensor object with the given id in place (all holders of
the id observe the change, as with the shared `TensorObj`). -/
def Graph.updateTensor (g : Graph) (id : Nat) (f : TensorNode → TensorNode) :
    Graph :=
  { g with tensorStore :=
      g.tensorStore.map (fun p => if p.1 = id then (p.1, f p.2) else p) }

/-- Mutate the operator object with the given id in place. -/
def Graph.updateOp (g : Graph) (id : Nat) (f : OpNode → OpNode) : Graph :=
  { g with opStore :=
      g.opStore.map (fun p => if p.1 = id then (p.1, f p.2) else p) }

/-- `TensorObj::addTarget` (`core/tensor.h`): `targets.emplace_back(op)`. -/
def TensorNode.addTarget (t : TensorNode) (op : Nat) : TensorNode :=
  { t with targets := t.targets ++ [op] }

/-- `TensorObj::removeTarget` (`core/tensor.h`): erase every entry equal
to the operator. -/
def TensorNode.removeTarget (t : TensorNode) (op : Nat) : TensorNode :=
  { t with targets := t.targets.filter (fun x => x ≠ op) }

/-- `TensorObj::setSource` (`core/tensor.h`). -/
def TensorNode.setSource (t : TensorNode) (op : Nat) : TensorNode :=
  { t with source := some op }

/-- Modelled from the spec: `OperatorObj::replaceInput(old, new)` is not
under src; spec 4.3 says it substitutes every occurrence of `old` in
`inputs` with `new`. -/
def OpNode.replaceInput (o : OpNode) (old nw : Nat) : OpNode :=
  { o with inputs := o.inputs.map (fun t => if t = old then nw else t) }

/-- Modelled from the spec: `OperatorObj::addPredecessors` is not under
src; spec 3 stores predecessor back-references for O(1) traversal, here
appended to the collection. -/
def OpNode.addPredecessors (o : OpNode) (p : Nat) : OpNode :=
  { o with preds := o.preds ++ [p] }

/-- Modelled from the spec: `OperatorObj::removePredecessors` drops every
edge to the given operator. -/
def OpNode.removePredecessors (o : OpNode) (p : Nat) : OpNode :=
  { o with preds := o.preds.filter (fun x => x ≠ p) }

/-- Modelled from the spec: `OperatorObj::addSuccessors`, as
`addPredecessors`. -/
def OpNode.addSuccessors (o : OpNode) (s : Nat) : OpNode :=
  { o with succs := o.succs ++ [s] }

/-- Modelled from the spec: `OperatorObj::removeSuccessors`, as
`removePredecessors`. -/
def OpNode.removeSuccessors (o : OpNode) (s : Nat) : OpNode :=
  { o with succs := o.succs.filter (fun x => x ≠ s) }

/-- The empty graph, as built by the `GraphObj` constructor
(`sorted = false`). -/
def Graph.emptyGraph : Graph := ⟨[], [], [], [], false⟩

/-- `GraphObj::addTensor(Shape, DataType)`: a fresh tensor (no source, no
targets) appended to `graph.tensors`; the caller picks the fresh id. -/
def Graph.addTensor (g : Graph) (id : Nat) (shape : Shape) : Graph :=
  { g with tensorStore := g.tensorStore ++ [(id, ⟨shape, none, []⟩)],
           tensors := g.tensors ++ [id] }

/-- `GraphObj::removeTensor` (`core/graph.h`): erase the first occurrence
from `graph.tensors` (the object itself may stay referenced). -/
def Graph.removeTensor (g : Graph) (id : Nat) : Graph :=
  { g with tensors := g.tensors.erase id }

/-- `GraphObj::removeOperator` (`core/graph.h`): erase the first
occurrence from `graph.ops`. -/
def Graph.removeOperator (g : Graph) (id : Nat) : Graph :=
  { g with ops := g.ops.erase id }

/-- `GraphObj::addOperatorAndConnect` (`core/graph.cc`): clear `sorted`,
append the operator, and wire the edges: each input gains the op as a
target and contributes its source as a predecessor; each output gets the
op as source, and any already-registered consumers of an output become
successors. -/
def Graph.addOperatorAndConnect (g : Graph) (id : Nat) (kind : OpKind)
    (inputs outputs : List Nat) : Graph :=
  let g0 := { g with sorted := false,
                     opStore := g.opStore ++ [(id, ⟨kind, inputs, outputs, [], []⟩)],
                     ops := g.ops ++ [id] }
  let g1 := inputs.foldl (fun gg input =>
      let gg1 := gg.updateTensor input (fun t => t.addTarget id)
      match (gg1.tensorObj input).source with
      | some pred =>
        (gg1.updateOp pred (fun o => o.addSuccessors id)).updateOp id
          (fun o => o.addPredecessors pred)
      | none => gg1) g0
  outputs.foldl (fun gg output =>
      let gg1 := gg.updateTensor output (fun t => t.setSource id)
      (gg1.tensorObj output).targets.foldl
        (fun g2 succ =>
          (g2.updateOp succ (fun o => o.addPredecessors id)).updateOp id
            (fun o => o.addSuccessors succ)) gg1) g1

/-- The inverse-permutation check of `GraphObj::optimize`
(`core/graph.cc`): `perm2[perm1[i]] == i` for every `i` (run by the source
only when the lengths already agree). -/
def permIsInverse (perm1 perm2 : List Int) : Bool :=
  (List.range perm1.length).all
    (fun i => perm2.getD (perm1.getD i 0).toNat 0 == (i : Int))

/-- The swap-last-two check of `GraphObj::optimize`: rank at least 2,
`perm[rank-1] == rank-2`, `perm[rank-2] == rank-1`, and identity on every
other axis. -/
def isSwapLastTwo (perm : List Int) : Bool :=
  let rank := perm.length
  if rank < 2 then false
  else
    perm.getD (rank - 1) 0 == (rank : Int) - 2 &&
    perm.getD (rank - 2) 0 == (rank : Int) - 1 &&
    (List.range (rank - 2)).all (fun i => perm.getD i 0 == (i : Int))

/-- Rule T1 of `GraphObj::optimize` (`core/graph.cc`, the branch that
removes an inverse pair `transOp1 → t_mid → transOp2`), in source order:
unhook `transOp1` from `grandInput`'s source, splice `grandInput` into
every consumer of `transOp2`'s output (iterating over a copy of the target
list, as `getTargets()` returns one), drop the targets/predecessor edges,
then remove both output tensors and both operators from the graph. -/
def cancelTransposePair (g : Graph) (transOp1 transOp2 : Nat) : Graph :=
  let grandInput := (g.opObj transOp1).inputs.getD 0 0
  let grandOutput := (g.opObj transOp2).outputs.getD 0 0
  let grandInputSource := (g.tensorObj grandInput).source
  let g1 := match grandInputSource with
    | some s => g.updateOp s (fun o => o.removeSuccessors transOp1)
    | none => g
  let g2 := ((g1.tensorObj grandOutput).targets).foldl
    (fun gg nextOp =>
      let gg1 := gg.updateOp nextOp
        (fun o => o.replaceInput grandOutput grandInput)
      let gg2 := gg1.updateTensor grandInput (fun t => t.addTarget nextOp)
      let gg3 := gg2.updateTensor grandOutput (fun t => t.removeTarget nextOp)
      let gg4 := gg3.updateOp nextOp (fun o => o.removePredecessors transOp2)
      match grandInputSource with
      | some s =>
        (gg4.updateOp nextOp (fun o => o.addPredecessors s)).updateOp s
          (fun o => o.addSuccessors nextOp)
      | none => gg4) g1
  let g3 := g2.updateTensor grandInput (fun t => t.removeTarget transOp1)
  let g4 := g3.removeTensor ((g3.opObj transOp1).outputs.getD 0 0)
  let g5 := g4.removeTensor ((g4.opObj transOp2).outputs.getD 0 0)
  (g5.removeOperator transOp1).removeOperator transOp2

/-- Rule T2 of `GraphObj::optimize` (both copies: input A when
`isA = true`, input B when `isA = false`), in source order: toggle the
matmul's transpose flag, replace the transposed intermediate input with
the transpose's own input, fix the target lists and operator edges, then
remove the intermediate tensor and the transpose operator. -/
def fuseMatmulInput (g : Graph) (matmulOp transOp : Nat) (isA : Bool) :
    Graph :=
  let inputs := (g.opObj matmulOp).inputs
  let intermediateTensor := cond isA (inputs.getD 0 0) (inputs.getD 1 0)
  let g0 := g.updateOp matmulOp (fun o =>
    { o with kind := match o.kind with
        | OpKind.matmul tA tB =>
          cond isA (OpKind.matmul (!tA) tB) (OpKind.matmul tA (!tB))
        | k => k })
  let transInput := (g0.opObj transOp).inputs.getD 0 0
  let transInputSource := (g0.tensorObj transInput).source
  let g1 := g0.updateOp matmulOp
    (fun o => o.replaceInput intermediateTensor transInput)
  let g2 := g1.updateTensor transInput (fun t => t.addTarget matmulOp)
  let g3 := g2.updateTensor transInput (fun t => t.removeTarget transOp)
  let g4 := g3.updateTensor intermediateTensor
    (fun t => t.removeTarget matmulOp)
  let g5 := match transInputSource with
    | some s => g4.updateOp s (fun o => o.removeSuccessors transOp)
    | none => g4
  let g6 := g5.updateOp matmulOp (fun o => o.removePredecessors transOp)
  let g7 := match transInputSource with
    | some s =>
      (g6.updateOp s (fun o => o.addSuccessors matmulOp)).updateOp matmulOp
        (fun o => o.addPredecessors s)
    | none => g6
  (g7.removeTensor intermediateTensor).removeOperator transOp

/-- The matmul half of the `optimize` loop body for input B: if
`inputs[1]`'s source is a Transpose, rewrite when the swap-last-two and
single-consumer checks pass — and report `refined = true` (`some`)
regardless, exactly as the source does; `none` means this operator set no
`refined` flag. -/
def matmulBranchB (g : Graph) (opId : Nat) : Option Graph :=
  let inB := (g.opObj opId).inputs.getD 1 0
  match (g.tensorObj inB).source with
  | some prevOpB =>
    match (g.opObj prevOpB).kind with
    | OpKind.transpose permB =>
      some (if isSwapLastTwo permB && ((g.tensorObj inB).targets.length == 1)
            then fuseMatmulInput g opId prevOpB false else g)
    | _ => none
  | none => none

/-- The matmul half of the `optimize` loop body: input A first (its
`refined = true; break` fires whenever the source is a Transpose, whether
or not a rewrite happened), then input B. -/
def matmulBranch (g : Graph) (opId : Nat) : Option Graph :=
  let inA := (g.opObj opId).inputs.getD 0 0
  match (g.tensorObj inA).source with
  | some prevOpA =>
    match (g.opObj prevOpA).kind with
    | OpKind.transpose permA =>
      some (if isSwapLastTwo permA && ((g.tensorObj inA).targets.length == 1)
            then fuseMatmulInput g opId prevOpA true else g)
    | _ => matmulBranchB g opId
  | none => matmulBranchB g opId

/-- One pass of the `do ... while (refined)` loop of `GraphObj::optimize`
over the remaining operator list: find the first operator that fires a
rule (`refined = true; break`), returning the graph after that iteration;
`none` when the whole pass finds no match (`refined` stays false). -/
def optimizePassAux (g : Graph) : List Nat → Option Graph
  | [] => none
  | opId :: rest =>
    match (g.opObj opId).kind with
    | OpKind.transpose perm2 =>
      let input := (g.opObj opId).inputs.getD 0 0
      match (g.tensorObj input).source with
      | some prevOp =>
        match (g.opObj prevOp).kind with
        | OpKind.transpose perm1 =>
          if perm1.length == perm2.length && permIsInverse perm1 perm2
              && ((g.tensorObj input).targets.length == 1) then
            some (cancelTransposePair g prevOp opId)
          else optimizePassAux g rest
        | _ => optimizePassAux g rest
      | none => optimizePassAux g rest
    | OpKind.matmul _ _ =>
      match matmulBranch g opId with
      | some g2 => some g2
      | none => optimizePassAux g rest
    | _ => optimizePassAux g rest

/-- One full pass of `GraphObj::optimize` over `graph.ops`. -/
def optimizePass (g : Graph) : Option Graph := optimizePassAux g g.ops

/-- The `do ... while (refined)` loop of `GraphObj::optimize`, bounded by
fuel: `some g` is reached exactly when some pass finds no match and the
loop exits with graph `g`; `none` means the fuel ran out with every pass
still reporting `refined = true`. -/
def optimizeLoop : Nat → Graph → Option Graph
  | 0, _ => none
  | fuel + 1, g =>
    match optimizePass g with
    | some g2 => optimizeLoop fuel g2
    | none => some g

/-- A graph with `X[2,3] → Transpose(perm=[0,1]) → T → MatMul(T, Wt) → O`:
the transpose feeding the matmul is NOT a swap of the last two axes. -/
def gBadMatmul : Graph :=
  ((((Graph.emptyGraph.addTensor 0 [2, 3]).addTensor 1 [2, 3]).addTensor 2
      [3, 4]).addTensor 3 [2, 4])
    |>.addOperatorAndConnect 10 (OpKind.transpose [0, 1]) [0] [1]
    |>.addOperatorAndConnect 11 (OpKind.matmul false false) [1, 2] [3]

/-- C1 (contradicted by the code): on `gBadMatmul` — a MatMul whose input
A is produced by a Transpose whose permutation `[0,1]` is not a swap of
the last two axes — every pass of the `do ... while (refined)` loop of
`GraphObj::optimize` hits the `refined = true; break` that the matmul
branch executes for ANY transpose-produced input, yet rewrites nothing:
the pass returns the graph unchanged, so the loop never reaches a pass
with `refined = false` and `optimize()` does not terminate, however much
fuel it is given. -/
theorem optimize_diverges_on_non_swap_transpose :
    optimizePass gBadMatmul = some gBadMatmul ∧
    ∀ fuel, optimizeLoop fuel gBadMatmul = none := by
  have h : optimizePass gBadMatmul = some gBadMatmul := by decide
  refine ⟨h, ?_⟩
  intro fuel
  induction fuel with
  | zero => rfl
  | succ n ih =>
    simp only [optimizeLoop, h]
    exact ih

/-- The readiness test of `GraphObj::topo_sort` (`core/graph.cc`): every
input either has no source or has a source already in the flag set. -/
def topoAllOf (g : Graph) (flags : List Nat) (opId : Nat) : Bool :=
  (g.opObj opId).inputs.all (fun input =>
    match (g.tensorObj input).source with
    | none => true
    | some p => flags.contains p)

/-- One scan of `graph.ops` inside the while-loop of
`GraphObj::topo_sort`: move every not-yet-flagged ready operator into the
sorted list (and the flag set), setting `modified`; ties keep the original
`graph.ops` order.  In the source `sorted` and `flags` receive the same
elements; they are threaded separately here as there. -/
def topoPass (g : Graph) : List Nat → List Nat → List Nat → Bool →
    List Nat × List Nat × Bool
  | [], sortedAcc, flags, modified => (sortedAcc, flags, modified)
  | opId :: rest, sortedAcc, flags, modified =>
    if !(flags.contains opId) && topoAllOf g flags opId then
      topoPass g rest (sortedAcc ++ [opId]) (flags ++ [opId]) true
    else topoPass g rest sortedAcc flags modified

/-- The `while (sorted.size() < ops.size())` loop of
`GraphObj::topo_sort`, bounded by fuel (each pass that continues has made
progress, so `ops.length + 1` fuel is enough): `none` is the `return
false` of a full pass without progress (or fuel running out). -/
def topoLoop (g : Graph) : Nat → List Nat → List Nat → Option (List Nat)
  | 0, _, _ => none
  | fuel + 1, sortedAcc, flags =>
    if sortedAcc.length < g.ops.length then
      let r := topoPass g g.ops sortedAcc flags false
      if r.2.2 then topoLoop g fuel r.1 r.2.1 else none
    else some sortedAcc

/-- `GraphObj::topo_sort`: an already-sorted graph returns immediately;
otherwise run the loop from empty `sorted`/`flags`; on success replace
`graph.ops` with the sorted order and set the flag. -/
def Graph.topo_sort (g : Graph) : Option Graph :=
  if g.sorted then some g
  else
    match topoLoop g (g.ops.length + 1) [] [] with
    | some s => some { g with ops := s, sorted := true }
    | none => none

/-- Operator `p` produces one of operator `o`'s inputs (the dependency
edge the topological sort respects). -/
def depRel (g : Graph) (p o : Nat) : Prop :=
  ∃ t ∈ (g.opObj o).inputs, (g.tensorObj t).source = some p

/-- A dependency cycle among the graph's operators: a non-empty list of
member operators in which every operator's input is produced by the
cyclically next one. -/
def IsCycle (g : Graph) (c : List Nat) : Prop :=
  c ≠ [] ∧ (∀ x ∈ c, x ∈ g.ops) ∧
  ∀ i, i < c.length → depRel g (c.getD ((i + 1) % c.length) 0) (c.getD i 0)

/-- Well-formedness used by the topological-sort claim: the source
operator of every input tensor of every member operator is itself a
member of `graph.ops` (spec 3, invariant 2). -/
def Graph.sourcesClosed (g : Graph) : Bool :=
  g.ops.all (fun o => (g.opObj o).inputs.all (fun t =>
    match (g.tensorObj t).source with
    | none => true
    | some p => g.ops.contains p))

/-- The ordering invariant of the sorted list: each operator's dependency
sources appear strictly earlier. -/
def OrderedOk (g : Graph) (acc : List Nat) : Prop :=
  ∀ i, i < acc.length → ∀ p, depRel g p (acc.getD i 0) → p ∈ acc.take i

theorem natGetD_mem (l : List Nat) (i : Nat) (hi : i < l.length) :
    l.getD i 0 ∈ l := by
  rw [List.getD_eq_getElem _ 0 hi]
  exact List.getElem_mem hi

theorem mem_natGetD (l : List Nat) (a : Nat) (h : a ∈ l) :
    ∃ i, i < l.length ∧ l.getD i 0 = a := by
  obtain ⟨n, hn, he⟩ := List.mem_iff_getElem.mp h
  exact ⟨n, hn, by rw [List.getD_eq_getElem _ 0 hn]; exact he⟩

theorem topoAllOf_sources (g : Graph) (flags : List Nat) (opId : Nat)
    (h : topoAllOf g flags opId = true) :
    ∀ p, depRel g p opId → p ∈ flags := by
  rintro p ⟨t, ht, hs⟩
  have h2 := List.all_eq_true.mp h t ht
  rw [hs] at h2
  exact List.elem_iff.mp h2

theorem topoAllOf_missing (g : Graph) (flags : List Nat) (opId : Nat)
    (h : topoAllOf g flags opId = false) :
    ∃ p, depRel g p opId ∧ p ∉ flags := by
  obtain ⟨t, ht, hf⟩ := List.all_eq_false.mp h
  cases hs : (g.tensorObj t).source with
  | none => rw [hs] at hf; exact absurd rfl hf
  | some p =>
    rw [hs] at hf
    exact ⟨p, ⟨t, ht, hs⟩, fun hm => hf (List.elem_iff.mpr hm)⟩

theorem sourcesClosed_spec (g : Graph) (h : g.sourcesClosed = true) :
    ∀ o ∈ g.ops, ∀ p, depRel g p o → p ∈ g.ops := by
  rintro o ho p ⟨t, ht, hs⟩
  have h1 := List.all_eq_true.mp (List.all_eq_true.mp h o ho) t ht
  rw [hs] at h1
  exact List.elem_iff.mp h1

theorem topoPass_spec (g : Graph) (l : List Nat) : ∀ acc m,
    ∃ d, topoPass g l acc acc m = (acc ++ d, acc ++ d, m || !d.isEmpty) ∧
      (∀ x ∈ d, x ∈ l ∧ x ∉ acc) ∧
      (acc.Nodup → (acc ++ d).Nodup) ∧
      (OrderedOk g acc → OrderedOk g (acc ++ d)) ∧
      (d.isEmpty = true → ∀ op ∈ l, op ∈ acc ∨ topoAllOf g acc op = false) ∧
      (∀ c, IsCycle g c → (∀ x ∈ c, x ∉ acc) → ∀ x ∈ c, x ∉ acc ++ d) := by
  induction l with
  | nil =>
    intro acc m
    refine ⟨[], ?_, by simp, by simp, by simp, by simp, ?_⟩
    · simp [topoPass]
    · intro c _ hdisj x hx
      simpa using hdisj x hx
  | cons opId rest ih =>
    intro acc m
    simp only [topoPass]
    by_cases hcond : (!(acc.contains opId) && topoAllOf g acc opId) = true
    · rw [if_pos hcond]
      have hnotmem : opId ∉ acc := by
        have h1 := ((Bool.and_eq_true _ _).mp hcond).1
        simpa [List.elem_iff] using h1
      have hready : topoAllOf g acc opId = true :=
        ((Bool.and_eq_true _ _).mp hcond).2
      have hnd1 : acc.Nodup → (acc ++ [opId]).Nodup := by
        intro hnd
        rw [List.nodup_append]
        exact ⟨hnd, List.nodup_singleton opId, by simpa using hnotmem⟩
      have hord1 : OrderedOk g acc → OrderedOk g (acc ++ [opId]) := by
        intro hord i hi p hdep
        rcases Nat.lt_or_ge i acc.length with hlt | hge
        · rw [List.getD_append _ _ _ _ hlt] at hdep
          rw [List.take_append_of_le_length (le_of_lt hlt)]
          exact hord i hlt p hdep
        · have hieq : i = acc.length := by
            simp only [List.length_append, List.length_singleton] at hi
            omega
          subst hieq
          have hgetd : (acc ++ [opId]).getD acc.length 0 = opId := by
            rw [List.getD_eq_getElem _ 0 (by simp)]
            simp
          rw [hgetd] at hdep
          rw [List.take_left]
          exact topoAllOf_sources g acc opId hready p hdep
      obtain ⟨d2, hpass, hmem2, hnd2, hord2, _, hcyc2⟩ := ih (acc ++ [opId]) true
      refine ⟨opId :: d2, ?_, ?_, ?_, ?_, ?_, ?_⟩
      · rw [hpass]
        simp [List.append_assoc]
      · intro x hx
        rcases List.mem_cons.mp hx with he | hr
        · subst he
          exact ⟨List.mem_cons_self .., hnotmem⟩
        · obtain ⟨h1, h2⟩ := hmem2 x hr
          exact ⟨List.mem_cons_of_mem _ h1,
            fun hxa => h2 (List.mem_append.mpr (Or.inl hxa))⟩
      · intro hnd
        have := hnd2 (hnd1 hnd)
        simpa [List.append_assoc] using this
      · intro hord
        have := hord2 (hord1 hord)
        simpa [List.append_assoc] using this
      · intro habs
        exact absurd habs (by simp)
      · intro c hc hdisj
        have hop : opId ∉ c := by
          intro hmemc
          obtain ⟨i, hi, hie⟩ := mem_natGetD c opId hmemc
          have hlenpos : 0 < c.length := List.length_pos.mpr hc.1
          have hdep := hc.2.2 i hi
          rw [hie] at hdep
          have hpc : c.getD ((i + 1) % c.length) 0 ∈ c :=
            natGetD_mem c _ (Nat.mod_lt _ hlenpos)
          exact hdisj _ hpc (topoAllOf_sources g acc opId hready _ hdep)
        have hdisj2 : ∀ x ∈ c, x ∉ acc ++ [opId] := by
          intro x hx hxin
          rcases List.mem_append.mp hxin with h1 | h2
          · exact hdisj x hx h1
          · rw [List.mem_singleton] at h2
            subst h2
            exact hop hx
        intro x hx
        have := hcyc2 c hc hdisj2 x hx
        simpa [List.append_assoc] using this
    · rw [if_neg hcond]
      obtain ⟨d, hpass, hmem, hnd, hord, hempty, hcyc⟩ := ih acc m
      refine ⟨d, hpass,
        fun x hx => ⟨List.mem_cons_of_mem _ (hmem x hx).1, (hmem x hx).2⟩,
        hnd, hord, ?_, hcyc⟩
      intro hde op hop
      rcases List.mem_cons.mp hop with he | hr
      · subst he
        by_cases hin : op ∈ acc
        · exact Or.inl hin
        · right
          cases htest : topoAllOf g acc op with
          | false => rfl
          | true =>
            exact absurd (by
              rw [htest]
              simp [List.elem_iff, hin]) hcond
      · exact hempty hde op hr

theorem topoLoop_spec (g : Graph) (hops : g.ops.Nodup) : ∀ fuel acc,
    acc.Nodup → OrderedOk g acc → (∀ x ∈ acc, x ∈ g.ops) →
    g.ops.length + 1 ≤ acc.length + fuel →
    ((∀ s, topoLoop g fuel acc acc = some s →
       s.Nodup ∧ OrderedOk g s ∧ (∀ x ∈ s, x ∈ g.ops) ∧
       g.ops.length ≤ s.length ∧
       (∀ c, IsCycle g c → (∀ x ∈ c, x ∉ acc) → ∀ x ∈ c, x ∉ s)) ∧
     (topoLoop g fuel acc acc = none →
       ∃ flags, (∃ op ∈ g.ops, op ∉ flags) ∧
         ∀ op ∈ g.ops, op ∉ flags → topoAllOf g flags op = false)) := by
  intro fuel
  induction fuel with
  | zero =>
    intro acc hnd _ hsub hfuel
    have hle : acc.length ≤ g.ops.length :=
      (List.subperm_of_subset hnd hsub).length_le
    omega
  | succ n ih =>
    intro acc hnd hord hsub hfuel
    simp only [topoLoop]
    by_cases hlt : acc.length < g.ops.length
    · rw [if_pos hlt]
      obtain ⟨d, hpass, hmem, hnd2, hord2, hempty, hcyc⟩ :=
        topoPass_spec g g.ops acc false
      rw [hpass]
      cases hd : d.isEmpty
      · -- progress was made: recurse
        have hlen : 1 ≤ d.length := by
          cases d with
          | nil => simp at hd
          | cons _ _ => simp
        simp only [hd, Bool.false_or, Bool.not_false, if_true]
        have hrec := ih (acc ++ d) (hnd2 hnd) (hord2 hord)
          (by
            intro x hx
            rcases List.mem_append.mp hx with h1 | h2
            · exact hsub x h1
            · exact (hmem x h2).1)
          (by
            have : acc.length + d.length = (acc ++ d).length := by simp
            omega)
        refine ⟨?_, hrec.2⟩
        intro s hs
        obtain ⟨h1, h2, h3, h4, h5⟩ := hrec.1 s hs
        refine ⟨h1, h2, h3, h4, ?_⟩
        intro c hc hdisj
        exact h5 c hc (hcyc c hc hdisj)
      · -- a full pass with no progress: return false
        simp only [hd, Bool.false_or, Bool.not_true, if_false]
        have hdnil : d = [] := by
          cases d with
          | nil => rfl
          | cons _ _ => simp at hd
        refine ⟨fun s hs => absurd hs (by simp), fun _ => ⟨acc, ?_, ?_⟩⟩
        · by_contra hall
          push_neg at hall
          have hsub2 : g.ops ⊆ acc := fun x hx => hall x hx
          have := (List.subperm_of_subset hops hsub2).length_le
          omega
        · intro op hop hnotin
          rcases hempty hd op hop with h1 | h2
          · exact absurd h1 hnotin
          · exact h2
    · rw [if_neg hlt]
      refine ⟨?_, fun h => absurd h (by simp)⟩
      intro s hs
      have hse : acc = s := by injection hs
      subst hse
      exact ⟨hnd, hord, hsub, Nat.le_of_not_lt hlt,
        fun c _ hdisj x hx => hdisj x hx⟩

theorem stuck_gives_cycle (g : Graph) (hsrc : g.sourcesClosed = true)
    (flags : List Nat)
    (hmiss : ∃ op ∈ g.ops, op ∉ flags)
    (hstuck : ∀ op ∈ g.ops, op ∉ flags → topoAllOf g flags op = false) :
    ∃ c, IsCycle g c := by
  classical
  obtain ⟨r0, hr0ops, hr0f⟩ := hmiss
  have hmemR : ∀ x, x ∈ g.ops.filter (fun o => !(flags.contains o)) ↔
      x ∈ g.ops ∧ x ∉ flags := by
    intro x
    rw [List.mem_filter]
    simp [List.elem_iff]
  have hRprop : ∀ o ∈ g.ops.filter (fun o => !(flags.contains o)),
      ∃ p, p ∈ g.ops.filter (fun o => !(flags.contains o)) ∧ depRel g p o := by
    intro o ho
    obtain ⟨ho1, ho2⟩ := (hmemR o).mp ho
    obtain ⟨p, hdep, hpf⟩ := topoAllOf_missing g flags o (hstuck o ho1 ho2)
    exact ⟨p, (hmemR p).mpr ⟨sourcesClosed_spec g hsrc o ho1 p hdep, hpf⟩, hdep⟩
  have hch : ∀ o, ∃ p, o ∈ g.ops.filter (fun o => !(flags.contains o)) →
      (p ∈ g.ops.filter (fun o => !(flags.contains o)) ∧ depRel g p o) := by
    intro o
    by_cases ho : o ∈ g.ops.filter (fun o => !(flags.contains o))
    · obtain ⟨p, hp⟩ := hRprop o ho
      exact ⟨p, fun _ => hp⟩
    · exact ⟨0, fun h => absurd h ho⟩
  choose f hf using hch
  have hr0R : r0 ∈ g.ops.filter (fun o => !(flags.contains o)) :=
    (hmemR r0).mpr ⟨hr0ops, hr0f⟩
  have hu : ∀ n, f^[n] r0 ∈ g.ops.filter (fun o => !(flags.contains o)) := by
    intro n
    induction n with
    | zero => exact hr0R
    | succ k ihk =>
      rw [Function.iterate_succ_apply']
      exact (hf (f^[k] r0) ihk).1
  have hdep : ∀ n, depRel g (f^[n + 1] r0) (f^[n] r0) := by
    intro n
    rw [Function.iterate_succ_apply']
    exact (hf (f^[n] r0) (hu n)).2
  set R := g.ops.filter (fun o => !(flags.contains o))
  have hmap : ∀ a ∈ Finset.range (R.length + 1),
      (fun n => f^[n] r0) a ∈ R.toFinset :=
    fun a _ => List.mem_toFinset.mpr (hu a)
  have hcard : R.toFinset.card < (Finset.range (R.length + 1)).card := by
    rw [Finset.card_range]
    exact Nat.lt_succ_of_le R.toFinset_card_le
  obtain ⟨x, _, y, _, hxy, hexy⟩ :=
    Finset.exists_ne_map_eq_of_card_lt_of_maps_to hcard hmap
  have hkey : ∀ i j : Nat, i < j → f^[i] r0 = f^[j] r0 → ∃ c, IsCycle g c := by
    intro i j hij huij
    refine ⟨(List.range (j - i)).map (fun k => f^[i + k] r0), ?_, ?_, ?_⟩
    · simp only [ne_eq, List.map_eq_nil_iff, List.range_eq_nil]
      omega
    · intro z hz
      obtain ⟨k, _, hk⟩ := List.mem_map.mp hz
      rw [← hk]
      exact List.mem_of_mem_filter (hu (i + k))
    · intro idx hidx
      have hlen : ((List.range (j - i)).map (fun k => f^[i + k] r0)).length
          = j - i := by simp
      rw [hlen] at hidx
      have hg1 : ((List.range (j - i)).map (fun k => f^[i + k] r0)).getD idx 0
          = f^[i + idx] r0 := getD_map_range _ _ _ hidx
      have hg2 : ((List.range (j - i)).map (fun k => f^[i + k] r0)).getD
          ((idx + 1) % ((List.range (j - i)).map (fun k => f^[i + k] r0)).length)
          0 = f^[i + idx + 1] r0 := by
        rw [hlen]
        rcases Nat.lt_or_ge (idx + 1) (j - i) with hlt | hge
        · rw [Nat.mod_eq_of_lt hlt, getD_map_range _ _ _ hlt]
          rw [← Nat.add_assoc]
        · have heq : idx + 1 = j - i := by omega
          rw [heq, Nat.mod_self, getD_map_range _ _ _ (by omega)]
          rw [Nat.add_zero, huij]
          congr 1
          omega
      rw [hg1, hg2]
      exact hdep (i + idx)
  rcases Nat.lt_or_ge x y with h | h
  · exact hkey x y h hexy
  · have hyx : y < x := by omega
    exact hkey y x hyx hexy.symm

/-- C6: `topo_sort()` (on a graph not already flagged sorted, with
distinct member operators whose input sources are members) succeeds
exactly when the operator dependency graph is acyclic; on success the new
`graph.ops` is a permutation of the old in which every operator appears
after the source operator of each of its inputs (index of producer <
index of consumer), and on a graph with a dependency cycle a full pass
makes no progress and it returns failure. -/
theorem topo_sort_iff_acyclic (g : Graph)
    (hsorted : g.sorted = false) (hnd : g.ops.Nodup)
    (hsrc : g.sourcesClosed = true) :
    ((∃ g2, g.topo_sort = some g2) ↔ ¬ ∃ c, IsCycle g c) ∧
    (∀ g2, g.topo_sort = some g2 →
      g2.ops.Perm g.ops ∧
      ∀ i j, i < g2.ops.length → j < g2.ops.length →
        depRel g (g2.ops.getD j 0) (g2.ops.getD i 0) → j < i) := by
  have hordnil : OrderedOk g ([] : List Nat) := by
    intro i hi
    simp at hi
  have hloop := topoLoop_spec g hnd (g.ops.length + 1) [] List.nodup_nil
    hordnil (by intro x hx; simp at hx) (by omega)
  have htsort : g.topo_sort
      = (match topoLoop g (g.ops.length + 1) [] [] with
         | some s => some { g with ops := s, sorted := true }
         | none => none) := by
    unfold Graph.topo_sort
    rw [if_neg (by rw [hsorted]; exact Bool.false_ne_true)]
  cases hl : topoLoop g (g.ops.length + 1) [] [] with
  | some s =>
    obtain ⟨hsnd, hsord, hssub, hslen, hscyc⟩ := hloop.1 s hl
    have hperm : s.Perm g.ops :=
      (List.subperm_of_subset hsnd hssub).perm_of_length_le hslen
    have hres : g.topo_sort = some { g with ops := s, sorted := true } := by
      rw [htsort, hl]
    constructor
    · constructor
      · rintro _ ⟨c, hc⟩
        obtain ⟨x, hx⟩ := List.exists_mem_of_ne_nil c hc.1
        exact hscyc c hc (by intro z _ hz; simp at hz) x hx
          (hperm.mem_iff.mpr (hc.2.1 x hx))
      · intro _
        exact ⟨_, hres⟩
    · intro g2 hg2
      rw [hres] at hg2
      have hg2e : g2 = { g with ops := s, sorted := true } := by
        injection hg2 with h
        exact h.symm
      subst hg2e
      refine ⟨hperm, ?_⟩
      intro i j hi hj hdep
      have hi' : i < s.length := by simpa using hi
      have hj' : j < s.length := by simpa using hj
      have hp := hsord i hi' _ hdep
      obtain ⟨n, hn, hne⟩ := mem_natGetD (s.take i) _ hp
      have hnb : n < i ∧ n < s.length := by
        rw [List.length_take] at hn
        omega
      have htake : (s.take i).getD n 0 = s.getD n 0 := by
        rw [List.getD_eq_getElem _ 0 hn, List.getD_eq_getElem _ 0 hnb.2]
        exact List.getElem_take ..
      have heq2 : s.getD n 0 = s.getD j 0 := by
        rw [← htake]
        exact hne
      have hnj : n = j := by
        rw [List.getD_eq_getElem _ 0 hnb.2, List.getD_eq_getElem _ 0 hj'] at heq2
        exact (hsnd.getElem_inj_iff).mp heq2
      omega
  | none =>
    obtain ⟨flags, hmiss, hstuck⟩ := hloop.2 hl
    have hexc := stuck_gives_cycle g hsrc flags hmiss hstuck
    have hres : g.topo_sort = none := by rw [htsort, hl]
    constructor
    · constructor
      · rintro ⟨g2, hg2⟩
        rw [hres] at hg2
        cases hg2
      · intro hnc
        exact absurd hexc hnc
    · intro g2 hg2
      rw [hres] at hg2
      cases hg2

/-- A small acyclic two-operator chain used as witness:
`X → Relu → Y → Relu → Z`. -/
def gChain : Graph :=
  (((Graph.emptyGraph.addTensor 0 [2]).addTensor 1 [2]).addTensor 2 [2])
    |>.addOperatorAndConnect 10 OpKind.relu [0] [1]
    |>.addOperatorAndConnect 11 OpKind.relu [1] [2]

theorem topo_sort_iff_acyclic_witness :
    (gChain.sorted = false ∧ gChain.ops.Nodup ∧
      gChain.sourcesClosed = true) ∧
    (((∃ g2, gChain.topo_sort = some g2) ↔ ¬ ∃ c, IsCycle gChain c) ∧
     (∀ g2, gChain.topo_sort = some g2 →
       g2.ops.Perm gChain.ops ∧
       ∀ i j, i < g2.ops.length → j < g2.ops.length →
         depRel gChain (g2.ops.getD j 0) (g2.ops.getD i 0) → j < i)) :=
  ⟨⟨by decide, by decide, by decide⟩,
   topo_sort_iff_acyclic gChain (by decide) (by decide) (by decide)⟩
